import Mathlib

/-!
Verification of the xdispersion paper notebooks.

The repository contains two notebooks. The first performs a dtype downcast of a
NetCDF trajectory dataset (modelled below by `XDataset` and `compress`). The
second symbolically derives probability-density functions and their moments for
relative-dispersion regimes; we embed each regime density as a real function
and each displayed quantity (`ra`, `r2`, `r4`, `rn`, `Ku`, `K2`) as the
corresponding Lebesgue integral / derivative over the real numbers, following
the notebook cells line by line.
-/

noncomputable section

open Real MeasureTheory Set Filter Topology

namespace XDispersion

/-- Modified Bessel function of the first kind of natural order `nu`, given by
its defining power series.  This models the external `besseli` used by the
notebook (the symbolic-algebra facility). -/
def besselI (nu : ℕ) (z : ℝ) : ℝ :=
  tsum (fun m : ℕ => (z / 2) ^ (2 * m + nu) / ((Nat.factorial m : ℝ) * (Nat.factorial (m + nu) : ℝ)))

/-- Moment integral of a radial density: the notebook computes
`2 * pi * integrate(p * r**k, (r, 0, oo))` with `k` an odd literal
(`k = 1` for the normalization `ra`, `k = 3` for `r2`, `k = 5` for `r4`). -/
def mom (p : ℝ → ℝ) (k : ℕ) : ℝ :=
  2 * π * ∫ r in Ioi (0 : ℝ), p r * r ^ k

/-- General moment integral `rn`: `2 * pi * integrate(p * r**(n+1), (r, 0, oo))`
with a symbolic real exponent `n`. -/
def momR (p : ℝ → ℝ) (n : ℝ) : ℝ :=
  2 * π * ∫ r in Ioi (0 : ℝ), p r * r ^ (n + 1)

/-- Asymptotic diffusive PDF, cell 2.2:
`p = 1.0 / (4*pi*k2*t) * exp(- (r**2)/(4*k2*t))`. -/
def pAsymDiff (k2 t r : ℝ) : ℝ :=
  1.0 / (4 * π * k2 * t) * exp (-(r ^ 2) / (4 * k2 * t))

def raAsymDiff (k2 t : ℝ) : ℝ := mom (pAsymDiff k2 t) 1

def r2AsymDiff (k2 t : ℝ) : ℝ := mom (pAsymDiff k2 t) 3

def r4AsymDiff (k2 t : ℝ) : ℝ := mom (pAsymDiff k2 t) 5

/-- Kurtosis of the asymptotic diffusive regime: `Ku = r4 / r2**2.0`. -/
def KuAsymDiff (k2 t : ℝ) : ℝ := r4AsymDiff k2 t / (r2AsymDiff k2 t) ^ (2.0 : ℝ)

/-- Effective diffusivity of the asymptotic diffusive regime:
`K2 = diff(r2, t) / 2`. -/
def K2AsymDiff (k2 t : ℝ) : ℝ := deriv (fun s => r2AsymDiff k2 s) t / 2

/-- Full diffusive PDF, cell 2.3:
`p = 1.0 / (4*pi*k2*t) * exp(-(r0**2 + r**2)/(4*k2*t)) * besseli(0, (r0*r)/(2*k2*t))`. -/
def pFullDiff (k2 t r0 r : ℝ) : ℝ :=
  1.0 / (4 * π * k2 * t) * exp (-(r0 ^ 2 + r ^ 2) / (4 * k2 * t)) *
    besselI 0 (r0 * r / (2 * k2 * t))

def raFullDiff (k2 t r0 : ℝ) : ℝ := mom (pFullDiff k2 t r0) 1

def r2FullDiff (k2 t r0 : ℝ) : ℝ := mom (pFullDiff k2 t r0) 3

/-- Asymptotic Garrett–Munk PDF, cell 2.4:
`fst = 2.0**5 / (3.0 * pi * (lmbd * t)**4.0)` and
`scd = exp(-4.0*r**(1.0/2.0)/(lmbd * t))`. -/
def pAsymGM (lm t r : ℝ) : ℝ :=
  (2.0 : ℝ) ^ (5 : ℕ) / (3.0 * π * (lm * t) ^ (4.0 : ℝ)) *
    exp (-4.0 * r ^ ((1.0 : ℝ) / 2.0) / (lm * t))

def raAsymGM (lm t : ℝ) : ℝ := mom (pAsymGM lm t) 1

def r2AsymGM (lm t : ℝ) : ℝ := mom (pAsymGM lm t) 3

def r4AsymGM (lm t : ℝ) : ℝ := mom (pAsymGM lm t) 5

def rnAsymGM (lm t n : ℝ) : ℝ := momR (pAsymGM lm t) n

def KuAsymGM (lm t : ℝ) : ℝ := r4AsymGM lm t / (r2AsymGM lm t) ^ (2.0 : ℝ)

def K2AsymGM (lm t : ℝ) : ℝ := deriv (fun s => r2AsymGM lm s) t / 2

/-- Full Garrett–Munk PDF, cell 2.5:
`fst = 1.0 / (pi * lmbd * t * (r0 * r)**(3.0/4.0))`,
`scd = exp(-4.0*(r0**(1.0/2.0) + r**(1.0/2.0))/(lmbd * t))`,
`trd = besseli(3, 8.0 * ((r0 * r)**(1.0/4.0)) / (lmbd * t))`. -/
def pFullGM (lm t r0 r : ℝ) : ℝ :=
  1.0 / (π * lm * t * (r0 * r) ^ ((3.0 : ℝ) / 4.0)) *
    exp (-4.0 * (r0 ^ ((1.0 : ℝ) / 2.0) + r ^ ((1.0 : ℝ) / 2.0)) / (lm * t)) *
    besselI 3 (8.0 * (r0 * r) ^ ((1.0 : ℝ) / 4.0) / (lm * t))

def raFullGM (lm t r0 : ℝ) : ℝ := mom (pFullGM lm t r0) 1

/-- Generalized asymptotic PDF, cell 2.6 (with `b = 3 - a`):
`fst = b / (4 * pi * gamma(4 / b) * (b**2/4 * lmbd * t)**(4/b))`,
`scd = exp( -4/b**2 * r**(b/2) / (lmbd * t) )`.
The cell runs with `a = 2`. -/
def pGenAsym (a lm t r : ℝ) : ℝ :=
  (3 - a) / (4 * π * Real.Gamma (4 / (3 - a)) * ((3 - a) ^ 2 / 4 * lm * t) ^ (4 / (3 - a))) *
    exp (-4 / (3 - a) ^ 2 * r ^ ((3 - a) / 2) / (lm * t))

def raGenAsym (lm t : ℝ) : ℝ := mom (pGenAsym 2 lm t) 1

def r2GenAsym (lm t : ℝ) : ℝ := mom (pGenAsym 2 lm t) 3

def r4GenAsym (lm t : ℝ) : ℝ := mom (pGenAsym 2 lm t) 5

def rnGenAsym (lm t n : ℝ) : ℝ := momR (pGenAsym 2 lm t) n

def KuGenAsym (lm t : ℝ) : ℝ := r4GenAsym lm t / (r2GenAsym lm t) ^ (2.0 : ℝ)

def K2GenAsym (lm t : ℝ) : ℝ := deriv (fun s => r2GenAsym lm s) t / 2

/-- Generalized full PDF, cell 2.7, with `a = 1` as set in the cell (so the
Python exponents evaluate to `a/2 = 0.5`, `2 - a = 1`, `(a-2)**2 = 1`,
`1 - a/2 = 0.5` and the Bessel order to `a/(2-a) = 1`):
`fst = 1 / (4 * pi * kappa * t * r**0.5 * r0**0.5)`,
`snd = exp(- 1.0 * (r + r0)/(kappa * t))`,
`trd = besseli(1, 2.0 * (r*r0)**0.5 / (kappa * t))`. -/
def pGenFull (kp t r0 r : ℝ) : ℝ :=
  1 / (4 * π * kp * t * r ^ (0.5 : ℝ) * r0 ^ (0.5 : ℝ)) *
    exp (-(1.0) * (r + r0) / (kp * t)) *
    besselI 1 (2.0 * (r * r0) ^ (0.5 : ℝ) / (kp * t))

def raGenFull (kp t r0 : ℝ) : ℝ := mom (pGenFull kp t r0) 1

/-- Asymptotic Richardson PDF, cell 2.8:
`fst = 1.5**5 / (4.0 * pi * (beta * t)**3.0)`,
`scd = exp(-9.0*r**(2.0/3.0)/(4.0 * beta * t))`. -/
def pAsymRich (bt t r : ℝ) : ℝ :=
  (1.5 : ℝ) ^ (5 : ℕ) / (4.0 * π * (bt * t) ^ (3.0 : ℝ)) *
    exp (-9.0 * r ^ ((2.0 : ℝ) / 3.0) / (4.0 * bt * t))

def raAsymRich (bt t : ℝ) : ℝ := mom (pAsymRich bt t) 1

def r2AsymRich (bt t : ℝ) : ℝ := mom (pAsymRich bt t) 3

def r4AsymRich (bt t : ℝ) : ℝ := mom (pAsymRich bt t) 5

def KuAsymRich (bt t : ℝ) : ℝ := r4AsymRich bt t / (r2AsymRich bt t) ^ (2.0 : ℝ)

/-- Full Richardson PDF, cell 2.9:
`fst = 3.0 / (4.0 * pi * beta * t * (r0 * r)**(2.0/3.0))`,
`scd = exp(-9.0*(r0**(2.0/3.0) + r**(2.0/3.0))/(4.0 * beta * t))`,
`trd = besseli(2, 9.0 * ((r0 * r)**(1.0/3.0)) / (2.0 * beta * t))`. -/
def pFullRich (bt t r0 r : ℝ) : ℝ :=
  3.0 / (4.0 * π * bt * t * (r0 * r) ^ ((2.0 : ℝ) / 3.0)) *
    exp (-9.0 * (r0 ^ ((2.0 : ℝ) / 3.0) + r ^ ((2.0 : ℝ) / 3.0)) / (4.0 * bt * t)) *
    besselI 2 (9.0 * (r0 * r) ^ ((1.0 : ℝ) / 3.0) / (2.0 * bt * t))

def raFullRich (bt t r0 : ℝ) : ℝ := mom (pFullRich bt t r0) 1

/-- Lundgren log-substituted PDF, cell 2.10 (second cell), after the change of
variable `x = ln(r/r0)`:
`p = 1 / (4 * pi**1.5 * r0**2 * (t/T)**0.5) * exp(-(x + 2*(t/T))**2 / (4*(t/T)))`. -/
def pLundgrenLog (r0 t T x : ℝ) : ℝ :=
  1 / (4 * π ^ (1.5 : ℝ) * r0 ^ 2 * (t / T) ^ (0.5 : ℝ)) *
    exp (-(x + 2 * (t / T)) ^ 2 / (4 * (t / T)))

/-- Normalization of the log-substituted Lundgren density:
`ra = 2 * pi * integrate(p * (r0*exp(x))**2, (x, -oo, oo))`. -/
def raLundgrenLog (r0 t T : ℝ) : ℝ :=
  2 * π * ∫ x : ℝ, pLundgrenLog r0 t T x * (r0 * exp x) ^ 2

/-- Variables of a trajectory dataset: integer-valued (`int64`) or
floating-valued.  The carrier `F` of floating values is kept abstract; the
downcast of a floating variable is an abstract elementwise map `F → F`, so no
claim depends on binary floating-point semantics. -/
inductive VarData (F : Type) where
  | ints : List Int → VarData F
  | floats : List F → VarData F
deriving DecidableEq

/-- A NetCDF-like dataset as printed by the conversion notebook: coordinates
`ids` and `time`, named data variables, and a `title` attribute. -/
structure XDataset (F : Type) where
  coordIds : List Int
  coordTime : List Int
  vars : List (String × VarData F)
  title : String
deriving DecidableEq

/-- Cast of an `int64` value to `int32` with numpy wraparound semantics. -/
def int32cast (x : Int) : Int := (x + 2 ^ 31) % 2 ^ 32 - 2 ^ 31

/-- Attribute access `dset.<name>` for an integer variable: fails (Python
raises `AttributeError`) when the variable is absent. -/
def getIntVar (d : XDataset F) (name : String) : Except String (List Int) :=
  match d.vars.lookup name with
  | some (VarData.ints xs) => Except.ok xs
  | some (VarData.floats _) => Except.error name
  | none => Except.error name

/-- Attribute access `dset.<name>` for a floating variable. -/
def getFloatVar (d : XDataset F) (name : String) : Except String (List F) :=
  match d.vars.lookup name with
  | some (VarData.floats xs) => Except.ok xs
  | some (VarData.ints _) => Except.error name
  | none => Except.error name

/-- The dtype-downcast cell of the conversion notebook:
`dset2 = xr.merge([dset.ID.astype(np.int32), dset.rowsize.astype(np.int32),
dset.ve.astype(np.float32), dset.vn.astype(np.float32),
dset.longitude.astype(np.float32), dset.latitude.astype(np.float32)])` followed
by `dset2.attrs[title] = dname + " experiment"`.  The merged dataset keeps the
coordinates; `f32` is the elementwise `astype(np.float32)` cast.  Every
variable access happens before the final dataset is produced (and hence before
`to_netcdf` writes it), so a missing variable aborts with no output. -/
def compress (f32 : F → F) (dname : String) (d : XDataset F) : Except String (XDataset F) := do
  let vID ← getIntVar d "ID"
  let vrow ← getIntVar d "rowsize"
  let vve ← getFloatVar d "ve"
  let vvn ← getFloatVar d "vn"
  let vlon ← getFloatVar d "longitude"
  let vlat ← getFloatVar d "latitude"
  Except.ok
    { coordIds := d.coordIds
      coordTime := d.coordTime
      vars := [("ID", VarData.ints (vID.map int32cast)),
               ("rowsize", VarData.ints (vrow.map int32cast)),
               ("ve", VarData.floats (vve.map f32)),
               ("vn", VarData.floats (vvn.map f32)),
               ("longitude", VarData.floats (vlon.map f32)),
               ("latitude", VarData.floats (vlat.map f32))]
      title := dname ++ " experiment" }

/-! ### Generic integral helpers -/

theorem tsum_pow_div_factorial_eq (q : ℝ) :
    (tsum fun n : ℕ => q ^ n / (Nat.factorial n : ℝ)) = exp q := by
  rw [Real.exp_eq_exp_ℝ, NormedSpace.exp_eq_tsum_div]

/-- Gamma-type integral with an integer-valued Gamma argument:
if `q = p * (kk + 1) - 1` then `∫ x^q * exp (-b x^p) = kk! / (p * b^(kk+1))`. -/
theorem integral_rpow_exp {p b : ℝ} (hp : 0 < p) (hb : 0 < b) (kk : ℕ) {q : ℝ}
    (hq : q = p * (kk + 1) - 1) :
    ∫ x in Ioi (0 : ℝ), x ^ q * exp (-b * x ^ p) =
      (Nat.factorial kk : ℝ) / (p * b ^ (kk + 1)) := by
  have hkk1 : (0 : ℝ) < (kk : ℝ) + 1 := by positivity
  have h1 : -1 < q := by nlinarith
  rw [integral_rpow_mul_exp_neg_mul_rpow hp h1 hb]
  have h2 : (q + 1) / p = ((kk : ℕ) : ℝ) + 1 := by
    rw [hq]; field_simp
  have h3 : -(q + 1) / p = -(((kk : ℕ) : ℝ) + 1) := by
    rw [neg_div, h2]
  rw [h2, h3, Real.Gamma_nat_eq_factorial, Real.rpow_neg hb.le,
    show ((kk : ℕ) : ℝ) + 1 = (((kk + 1 : ℕ)) : ℝ) by push_cast; ring,
    Real.rpow_natCast]
  have hbk : (0 : ℝ) < b ^ (kk + 1) := by positivity
  field_simp
  exact Or.inl (mul_comm p _)

/-- Moment of a density of the shape `C * exp (-b * r^p)`. -/
theorem mom_C_exp (C : ℝ) {b p : ℝ} (hp : 0 < p) (hb : 0 < b) (k kk : ℕ)
    (hkk : (k : ℝ) = p * (kk + 1) - 1) :
    mom (fun r => C * exp (-b * r ^ p)) k =
      2 * π * C * (Nat.factorial kk : ℝ) / (p * b ^ (kk + 1)) := by
  unfold mom
  have hpt : ∀ r : ℝ, (C * exp (-b * r ^ p)) * r ^ k = C * (r ^ ((k : ℕ) : ℝ) * exp (-b * r ^ p)) := by
    intro r; rw [Real.rpow_natCast]; ring
  simp only [hpt]
  rw [integral_mul_left, integral_rpow_exp hp hb kk hkk]
  ring

/-! ### Asymptotic diffusive regime -/

theorem pAsymDiff_shape (k2 t : ℝ) :
    pAsymDiff k2 t = fun r => (1.0 / (4 * π * k2 * t)) * exp (-(1 / (4 * k2 * t)) * r ^ (2.0 : ℝ)) := by
  funext r
  unfold pAsymDiff
  have h2 : r ^ (2.0 : ℝ) = r ^ (2 : ℕ) := by
    rw [show (2.0 : ℝ) = ((2 : ℕ) : ℝ) by norm_num, Real.rpow_natCast]
  rw [h2]
  have h3 : -(r ^ (2 : ℕ)) / (4 * k2 * t) = -(1 / (4 * k2 * t)) * r ^ (2 : ℕ) := by ring
  rw [h3]

theorem raAsymDiff_eq {k2 t : ℝ} (hk : 0 < k2) (ht : 0 < t) : raAsymDiff k2 t = 1 := by
  have hb : (0 : ℝ) < 1 / (4 * k2 * t) := by positivity
  have hπ := Real.pi_ne_zero
  have hk' := hk.ne'
  have ht' := ht.ne'
  unfold raAsymDiff
  rw [pAsymDiff_shape,
    mom_C_exp (1.0 / (4 * π * k2 * t)) (by norm_num : (0:ℝ) < 2.0) hb 1 0 (by norm_num)]
  norm_num [Nat.factorial]
  field_simp
  ring

theorem r2AsymDiff_eq {k2 t : ℝ} (hk : 0 < k2) (ht : 0 < t) : r2AsymDiff k2 t = 4 * k2 * t := by
  have hb : (0 : ℝ) < 1 / (4 * k2 * t) := by positivity
  have hπ := Real.pi_ne_zero
  have hk' := hk.ne'
  have ht' := ht.ne'
  unfold r2AsymDiff
  rw [pAsymDiff_shape,
    mom_C_exp (1.0 / (4 * π * k2 * t)) (by norm_num : (0:ℝ) < 2.0) hb 3 1 (by norm_num)]
  norm_num [Nat.factorial]
  field_simp
  ring

theorem r4AsymDiff_eq {k2 t : ℝ} (hk : 0 < k2) (ht : 0 < t) :
    r4AsymDiff k2 t = 32 * k2 ^ 2 * t ^ 2 := by
  have hb : (0 : ℝ) < 1 / (4 * k2 * t) := by positivity
  have hπ := Real.pi_ne_zero
  have hk' := hk.ne'
  have ht' := ht.ne'
  unfold r4AsymDiff
  rw [pAsymDiff_shape,
    mom_C_exp (1.0 / (4 * π * k2 * t)) (by norm_num : (0:ℝ) < 2.0) hb 5 2 (by norm_num)]
  norm_num [Nat.factorial]
  field_simp
  ring

theorem KuAsymDiff_eq {k2 t : ℝ} (hk : 0 < k2) (ht : 0 < t) : KuAsymDiff k2 t = 2 := by
  unfold KuAsymDiff
  rw [r4AsymDiff_eq hk ht, r2AsymDiff_eq hk ht,
    show (2.0 : ℝ) = (2 : ℝ) by norm_num, Real.rpow_two]
  have hk' := hk.ne'
  have ht' := ht.ne'
  field_simp
  ring

theorem K2AsymDiff_eq {k2 t : ℝ} (hk : 0 < k2) (ht : 0 < t) : K2AsymDiff k2 t = 2 * k2 := by
  unfold K2AsymDiff
  have hev : (fun s => r2AsymDiff k2 s) =ᶠ[𝓝 t] (fun s => 4 * k2 * s) := by
    filter_upwards [Ioi_mem_nhds ht] with s hs
    exact r2AsymDiff_eq hk hs
  rw [hev.deriv_eq]
  have hder : deriv (fun s : ℝ => 4 * k2 * s) t = 4 * k2 := by
    simpa using ((hasDerivAt_id t).const_mul (4 * k2)).deriv
  rw [hder]
  ring

/-! ### Asymptotic Garrett–Munk regime -/

theorem pAsymGM_shape (lm t : ℝ) :
    pAsymGM lm t = fun r =>
      ((2.0 : ℝ) ^ (5 : ℕ) / (3.0 * π * (lm * t) ^ (4.0 : ℝ))) *
        exp (-(4.0 / (lm * t)) * r ^ ((1.0 : ℝ) / 2.0)) := by
  funext r
  unfold pAsymGM
  have h3 : -4.0 * r ^ ((1.0 : ℝ) / 2.0) / (lm * t) =
      -(4.0 / (lm * t)) * r ^ ((1.0 : ℝ) / 2.0) := by ring
  rw [h3]

theorem rpow_four_eq (x : ℝ) : x ^ (4.0 : ℝ) = x ^ (4 : ℕ) := by
  rw [show (4.0 : ℝ) = ((4 : ℕ) : ℝ) by norm_num, Real.rpow_natCast]

theorem rpow_three_eq (x : ℝ) : x ^ (3.0 : ℝ) = x ^ (3 : ℕ) := by
  rw [show (3.0 : ℝ) = ((3 : ℕ) : ℝ) by norm_num, Real.rpow_natCast]

theorem raAsymGM_eq {lm t : ℝ} (hl : 0 < lm) (ht : 0 < t) : raAsymGM lm t = 1 := by
  have hb : (0 : ℝ) < 4.0 / (lm * t) := by positivity
  have hπ := Real.pi_ne_zero
  have hl' := hl.ne'
  have ht' := ht.ne'
  unfold raAsymGM
  rw [pAsymGM_shape,
    mom_C_exp ((2.0 : ℝ) ^ (5 : ℕ) / (3.0 * π * (lm * t) ^ (4.0 : ℝ)))
      (by norm_num : (0:ℝ) < (1.0 : ℝ) / 2.0) hb 1 3 (by norm_num), rpow_four_eq]
  norm_num [Nat.factorial]
  field_simp
  ring

theorem r2AsymGM_eq {lm t : ℝ} (hl : 0 < lm) (ht : 0 < t) :
    r2AsymGM lm t = 3.28125 * lm ^ 4 * t ^ 4 := by
  have hb : (0 : ℝ) < 4.0 / (lm * t) := by positivity
  have hπ := Real.pi_ne_zero
  have hl' := hl.ne'
  have ht' := ht.ne'
  unfold r2AsymGM
  rw [pAsymGM_shape,
    mom_C_exp ((2.0 : ℝ) ^ (5 : ℕ) / (3.0 * π * (lm * t) ^ (4.0 : ℝ)))
      (by norm_num : (0:ℝ) < (1.0 : ℝ) / 2.0) hb 3 7 (by norm_num), rpow_four_eq]
  norm_num [Nat.factorial]
  field_simp
  ring

theorem r4AsymGM_eq {lm t : ℝ} (hl : 0 < lm) (ht : 0 < t) :
    r4AsymGM lm t = 101.513671875 * lm ^ 8 * t ^ 8 := by
  have hb : (0 : ℝ) < 4.0 / (lm * t) := by positivity
  have hπ := Real.pi_ne_zero
  have hl' := hl.ne'
  have ht' := ht.ne'
  unfold r4AsymGM
  rw [pAsymGM_shape,
    mom_C_exp ((2.0 : ℝ) ^ (5 : ℕ) / (3.0 * π * (lm * t) ^ (4.0 : ℝ)))
      (by norm_num : (0:ℝ) < (1.0 : ℝ) / 2.0) hb 5 11 (by norm_num), rpow_four_eq]
  norm_num [Nat.factorial]
  field_simp
  ring

theorem KuAsymGM_eq {lm t : ℝ} (hl : 0 < lm) (ht : 0 < t) : KuAsymGM lm t = 66 / 7 := by
  unfold KuAsymGM
  rw [r4AsymGM_eq hl ht, r2AsymGM_eq hl ht,
    show (2.0 : ℝ) = (2 : ℝ) by norm_num, Real.rpow_two]
  have hl' := hl.ne'
  have ht' := ht.ne'
  field_simp
  ring

theorem K2AsymGM_eq {lm t : ℝ} (hl : 0 < lm) (ht : 0 < t) :
    K2AsymGM lm t = 6.5625 * lm ^ 4 * t ^ 3 := by
  unfold K2AsymGM
  have hev : (fun s => r2AsymGM lm s) =ᶠ[𝓝 t] (fun s => 3.28125 * lm ^ 4 * s ^ 4) := by
    filter_upwards [Ioi_mem_nhds ht] with s hs
    exact r2AsymGM_eq hl hs
  rw [hev.deriv_eq]
  have hder : deriv (fun s : ℝ => 3.28125 * lm ^ 4 * s ^ 4) t =
      3.28125 * lm ^ 4 * (4 * t ^ 3) := by
    simp
  rw [hder]
  ring

/-! ### Asymptotic Richardson regime -/

theorem pAsymRich_shape (bt t : ℝ) :
    pAsymRich bt t = fun r =>
      ((1.5 : ℝ) ^ (5 : ℕ) / (4.0 * π * (bt * t) ^ (3.0 : ℝ))) *
        exp (-(9.0 / (4.0 * bt * t)) * r ^ ((2.0 : ℝ) / 3.0)) := by
  funext r
  unfold pAsymRich
  have h3 : -9.0 * r ^ ((2.0 : ℝ) / 3.0) / (4.0 * bt * t) =
      -(9.0 / (4.0 * bt * t)) * r ^ ((2.0 : ℝ) / 3.0) := by ring
  rw [h3]

theorem raAsymRich_eq {bt t : ℝ} (hb : 0 < bt) (ht : 0 < t) : raAsymRich bt t = 1 := by
  have hb9 : (0 : ℝ) < 9.0 / (4.0 * bt * t) := by positivity
  have hπ := Real.pi_ne_zero
  have hb' := hb.ne'
  have ht' := ht.ne'
  unfold raAsymRich
  rw [pAsymRich_shape,
    mom_C_exp ((1.5 : ℝ) ^ (5 : ℕ) / (4.0 * π * (bt * t) ^ (3.0 : ℝ)))
      (by norm_num : (0:ℝ) < (2.0 : ℝ) / 3.0) hb9 1 2 (by norm_num), rpow_three_eq]
  norm_num [Nat.factorial]
  field_simp
  ring

theorem r2AsymRich_eq {bt t : ℝ} (hb : 0 < bt) (ht : 0 < t) :
    r2AsymRich bt t = 1280 / 243 * bt ^ 3 * t ^ 3 := by
  have hb9 : (0 : ℝ) < 9.0 / (4.0 * bt * t) := by positivity
  have hπ := Real.pi_ne_zero
  have hb' := hb.ne'
  have ht' := ht.ne'
  unfold r2AsymRich
  rw [pAsymRich_shape,
    mom_C_exp ((1.5 : ℝ) ^ (5 : ℕ) / (4.0 * π * (bt * t) ^ (3.0 : ℝ)))
      (by norm_num : (0:ℝ) < (2.0 : ℝ) / 3.0) hb9 3 5 (by norm_num), rpow_three_eq]
  norm_num [Nat.factorial]
  field_simp
  ring

theorem r4AsymRich_eq {bt t : ℝ} (hb : 0 < bt) (ht : 0 < t) :
    r4AsymRich bt t = 9175040 / 59049 * bt ^ 6 * t ^ 6 := by
  have hb9 : (0 : ℝ) < 9.0 / (4.0 * bt * t) := by positivity
  have hπ := Real.pi_ne_zero
  have hb' := hb.ne'
  have ht' := ht.ne'
  unfold r4AsymRich
  rw [pAsymRich_shape,
    mom_C_exp ((1.5 : ℝ) ^ (5 : ℕ) / (4.0 * π * (bt * t) ^ (3.0 : ℝ)))
      (by norm_num : (0:ℝ) < (2.0 : ℝ) / 3.0) hb9 5 8 (by norm_num), rpow_three_eq]
  norm_num [Nat.factorial]
  field_simp
  ring

theorem KuAsymRich_eq {bt t : ℝ} (hb : 0 < bt) (ht : 0 < t) : KuAsymRich bt t = 5.6 := by
  unfold KuAsymRich
  rw [r4AsymRich_eq hb ht, r2AsymRich_eq hb ht,
    show (2.0 : ℝ) = (2 : ℝ) by norm_num, Real.rpow_two]
  have hb' := hb.ne'
  have ht' := ht.ne'
  field_simp
  ring

/-! ### Generalized asymptotic regime at `a = 2` coincides with the GM regime -/

theorem pGenAsym_two_eq {lm t : ℝ} (hl : 0 < lm) (ht : 0 < t) :
    pGenAsym 2 lm t = pAsymGM lm t := by
  funext r
  unfold pGenAsym pAsymGM
  have hΓ : Real.Gamma (4 / (3 - 2)) = 6 := by
    rw [show (4 : ℝ) / (3 - 2) = ((3 : ℕ) : ℝ) + 1 by norm_num, Real.Gamma_nat_eq_factorial]
    norm_num [Nat.factorial]
  rw [hΓ, show (4 : ℝ) / (3 - 2) = ((4 : ℕ) : ℝ) by norm_num, Real.rpow_natCast,
    rpow_four_eq (lm * t), show ((3 : ℝ) - 2) / 2 = (1.0 : ℝ) / 2.0 by norm_num]
  have hπ := Real.pi_ne_zero
  have hl' := hl.ne'
  have ht' := ht.ne'
  congr 1
  · field_simp
    ring
  · congr 1
    field_simp
    ring

theorem raGenAsym_eq_GM {lm t : ℝ} (hl : 0 < lm) (ht : 0 < t) :
    raGenAsym lm t = raAsymGM lm t := by
  unfold raGenAsym raAsymGM
  rw [pGenAsym_two_eq hl ht]

theorem r2GenAsym_eq_GM {lm t : ℝ} (hl : 0 < lm) (ht : 0 < t) :
    r2GenAsym lm t = r2AsymGM lm t := by
  unfold r2GenAsym r2AsymGM
  rw [pGenAsym_two_eq hl ht]

theorem r4GenAsym_eq_GM {lm t : ℝ} (hl : 0 < lm) (ht : 0 < t) :
    r4GenAsym lm t = r4AsymGM lm t := by
  unfold r4GenAsym r4AsymGM
  rw [pGenAsym_two_eq hl ht]

theorem rnGenAsym_eq_GM {lm t : ℝ} (hl : 0 < lm) (ht : 0 < t) (n : ℝ) :
    rnGenAsym lm t n = rnAsymGM lm t n := by
  unfold rnGenAsym rnAsymGM
  rw [pGenAsym_two_eq hl ht]

theorem KuGenAsym_eq_GM {lm t : ℝ} (hl : 0 < lm) (ht : 0 < t) :
    KuGenAsym lm t = KuAsymGM lm t := by
  unfold KuGenAsym KuAsymGM
  rw [r2GenAsym_eq_GM hl ht, r4GenAsym_eq_GM hl ht]

theorem raGenAsym_eq {lm t : ℝ} (hl : 0 < lm) (ht : 0 < t) : raGenAsym lm t = 1 := by
  rw [raGenAsym_eq_GM hl ht, raAsymGM_eq hl ht]

theorem r2GenAsym_eq {lm t : ℝ} (hl : 0 < lm) (ht : 0 < t) :
    r2GenAsym lm t = 3.28125 * lm ^ 4 * t ^ 4 := by
  rw [r2GenAsym_eq_GM hl ht, r2AsymGM_eq hl ht]

theorem K2GenAsym_eq {lm t : ℝ} (hl : 0 < lm) (ht : 0 < t) :
    K2GenAsym lm t = 6.5625 * lm ^ 4 * t ^ 3 := by
  unfold K2GenAsym
  have hev : (fun s => r2GenAsym lm s) =ᶠ[𝓝 t] (fun s => 3.28125 * lm ^ 4 * s ^ 4) := by
    filter_upwards [Ioi_mem_nhds ht] with s hs
    exact r2GenAsym_eq hl hs
  rw [hev.deriv_eq]
  have hder : deriv (fun s : ℝ => 3.28125 * lm ^ 4 * s ^ 4) t =
      3.28125 * lm ^ 4 * (4 * t ^ 3) := by
    simp
  rw [hder]
  ring

theorem K2GenAsym_eq_GM {lm t : ℝ} (hl : 0 < lm) (ht : 0 < t) :
    K2GenAsym lm t = K2AsymGM lm t := by
  rw [K2GenAsym_eq hl ht, K2AsymGM_eq hl ht]

/-! ### Weber–type integrals of Bessel densities -/

theorem integrableOn_rpow_exp {p q b : ℝ} (hp : 0 < p) (hq : -1 < q) (hb : 0 < b) :
    IntegrableOn (fun x : ℝ => x ^ q * exp (-b * x ^ p)) (Ioi 0) := by
  have hq1 : -1 < (q + 1) / p - 1 := by
    have h0 : 0 < (q + 1) / p := div_pos (by linarith) hp
    linarith
  have h1 : IntegrableOn (fun y : ℝ => y ^ ((q + 1) / p - 1) * exp (-b * y ^ (1 : ℝ))) (Ioi 0) :=
    integrableOn_rpow_mul_exp_neg_mul_rpow hq1 le_rfl hb
  have h2 := (integrableOn_Ioi_comp_rpow_iff
    (fun y : ℝ => y ^ ((q + 1) / p - 1) * exp (-b * y ^ (1 : ℝ))) hp.ne').mpr h1
  have h3 : IntegrableOn (fun x : ℝ => p * (x ^ q * exp (-b * x ^ p))) (Ioi 0) := by
    refine h2.congr_fun (fun x hx => ?_) measurableSet_Ioi
    have hx0 : (0 : ℝ) < x := hx
    rw [smul_eq_mul, abs_of_pos hp, Real.rpow_one, ← Real.rpow_mul hx0.le]
    have he : p * ((q + 1) / p - 1) = q + 1 - p := by field_simp
    rw [he]
    have hpow : x ^ (p - 1) * x ^ (q + 1 - p) = x ^ q := by
      rw [← Real.rpow_add hx0]; congr 1; ring
    rw [← hpow]
    ring
  have h4 : IntegrableOn (fun x : ℝ => p⁻¹ * (p * (x ^ q * exp (-b * x ^ p)))) (Ioi 0) :=
    h3.const_mul p⁻¹
  refine h4.congr_fun (fun x hx => ?_) measurableSet_Ioi
  rw [inv_mul_cancel_left₀ hp.ne']

/-- Series-integral exchange for an integrand `r ^ σ * exp (-c r^p) * I_ν (d r^(p/2))`
on `(0, ∞)`: the integral equals the termwise-integrated Bessel series, provided the
termwise values are summable. -/
theorem weber_core (ν j : ℕ) {p c d σ e2 : ℝ} (hp : 0 < p) (hc : 0 < c) (hd : 0 ≤ d)
    (hσ : σ = p * ((ν : ℝ) / 2 + (j : ℝ) + 1) - 1) (he2 : e2 = p / 2)
    (hsum : Summable (fun m : ℕ =>
      (d / 2) ^ (2 * m + ν) / ((Nat.factorial m : ℝ) * (Nat.factorial (m + ν) : ℝ)) *
        ((Nat.factorial (m + ν + j) : ℝ) / (p * c ^ (m + ν + j + 1))))) :
    ∫ r in Ioi (0 : ℝ), r ^ σ * exp (-c * r ^ p) * besselI ν (d * r ^ e2)
      = tsum (fun m : ℕ =>
          (d / 2) ^ (2 * m + ν) / ((Nat.factorial m : ℝ) * (Nat.factorial (m + ν) : ℝ)) *
            ((Nat.factorial (m + ν + j) : ℝ) / (p * c ^ (m + ν + j + 1)))) := by
  subst hσ
  subst he2
  have key : ∀ r ∈ Ioi (0 : ℝ),
      r ^ (p * ((ν : ℝ) / 2 + (j : ℝ) + 1) - 1) * exp (-c * r ^ p) * besselI ν (d * r ^ (p / 2))
        = tsum (fun m : ℕ =>
            (d / 2) ^ (2 * m + ν) / ((Nat.factorial m : ℝ) * (Nat.factorial (m + ν) : ℝ)) *
              (r ^ (p * ((↑(m + ν + j) : ℝ) + 1) - 1) * exp (-c * r ^ p))) := by
    intro r hr
    have hr0 : (0 : ℝ) < r := hr
    simp only [besselI]
    rw [← tsum_mul_left]
    refine tsum_congr (fun m => ?_)
    rw [show d * r ^ (p / 2) / 2 = d / 2 * r ^ (p / 2) by ring, mul_pow,
      ← Real.rpow_natCast (r ^ (p / 2)) (2 * m + ν), ← Real.rpow_mul hr0.le]
    have hexp : r ^ (p * ((ν : ℝ) / 2 + (j : ℝ) + 1) - 1) * r ^ (p / 2 * ((2 * m + ν : ℕ) : ℝ))
        = r ^ (p * ((↑(m + ν + j) : ℝ) + 1) - 1) := by
      rw [← Real.rpow_add hr0]
      congr 1
      push_cast
      ring
    rw [← hexp]
    ring
  rw [setIntegral_congr_fun measurableSet_Ioi key]
  have hInt : ∀ m : ℕ, Integrable (fun r : ℝ =>
      (d / 2) ^ (2 * m + ν) / ((Nat.factorial m : ℝ) * (Nat.factorial (m + ν) : ℝ)) *
        (r ^ (p * ((↑(m + ν + j) : ℝ) + 1) - 1) * exp (-c * r ^ p)))
      (volume.restrict (Ioi 0)) := by
    intro m
    have h1 : -1 < p * ((↑(m + ν + j) : ℝ) + 1) - 1 := by
      have h0 : 0 < p * ((↑(m + ν + j) : ℝ) + 1) := by positivity
      linarith
    exact (integrableOn_rpow_exp hp h1 hc).const_mul _
  have hval : ∀ m : ℕ,
      (∫ r in Ioi (0 : ℝ),
        (d / 2) ^ (2 * m + ν) / ((Nat.factorial m : ℝ) * (Nat.factorial (m + ν) : ℝ)) *
          (r ^ (p * ((↑(m + ν + j) : ℝ) + 1) - 1) * exp (-c * r ^ p)))
        = (d / 2) ^ (2 * m + ν) / ((Nat.factorial m : ℝ) * (Nat.factorial (m + ν) : ℝ)) *
            ((Nat.factorial (m + ν + j) : ℝ) / (p * c ^ (m + ν + j + 1))) := by
    intro m
    rw [integral_mul_left, integral_rpow_exp hp hc (m + ν + j) rfl]
  have hnorm : ∀ m : ℕ,
      (∫ r in Ioi (0 : ℝ),
        ‖(d / 2) ^ (2 * m + ν) / ((Nat.factorial m : ℝ) * (Nat.factorial (m + ν) : ℝ)) *
          (r ^ (p * ((↑(m + ν + j) : ℝ) + 1) - 1) * exp (-c * r ^ p))‖)
        = ∫ r in Ioi (0 : ℝ),
            (d / 2) ^ (2 * m + ν) / ((Nat.factorial m : ℝ) * (Nat.factorial (m + ν) : ℝ)) *
              (r ^ (p * ((↑(m + ν + j) : ℝ) + 1) - 1) * exp (-c * r ^ p)) := by
    intro m
    refine setIntegral_congr_fun measurableSet_Ioi (fun r hr => ?_)
    have hr0 : (0 : ℝ) < r := hr
    refine norm_of_nonneg ?_
    have hcoeff : (0 : ℝ) ≤ (d / 2) ^ (2 * m + ν) /
        ((Nat.factorial m : ℝ) * (Nat.factorial (m + ν) : ℝ)) := by positivity
    exact mul_nonneg hcoeff
      (mul_nonneg (Real.rpow_nonneg hr0.le _) (exp_pos _).le)
  have hsum2 : Summable (fun m : ℕ =>
      ∫ r in Ioi (0 : ℝ),
        ‖(d / 2) ^ (2 * m + ν) / ((Nat.factorial m : ℝ) * (Nat.factorial (m + ν) : ℝ)) *
          (r ^ (p * ((↑(m + ν + j) : ℝ) + 1) - 1) * exp (-c * r ^ p))‖) := by
    refine Summable.congr hsum (fun m => ?_)
    rw [hnorm m, hval m]
  have hswap := (MeasureTheory.hasSum_integral_of_summable_integral_norm hInt hsum2).tsum_eq
  rw [← hswap]
  exact tsum_congr hval

theorem succ_term_eq (q : ℝ) (n : ℕ) :
    ((n + 1 : ℕ) : ℝ) * q ^ (n + 1) / (Nat.factorial (n + 1) : ℝ)
      = q * (q ^ n / (Nat.factorial n : ℝ)) := by
  rw [Nat.factorial_succ]
  push_cast
  have hn : ((n : ℝ) + 1) ≠ 0 := by positivity
  have hf : (Nat.factorial n : ℝ) ≠ 0 := Nat.cast_ne_zero.mpr (Nat.factorial_ne_zero n)
  field_simp
  ring

theorem summable_mul_pow_div_factorial (q : ℝ) :
    Summable (fun m : ℕ => (m : ℝ) * q ^ m / (Nat.factorial m : ℝ)) := by
  rw [← summable_nat_add_iff 1]
  exact Summable.congr ((Real.summable_pow_div_factorial q).mul_left q)
    (fun n => (succ_term_eq q n).symm)

theorem summable_succ_pow_div_factorial (q : ℝ) :
    Summable (fun m : ℕ => ((m : ℝ) + 1) * q ^ m / (Nat.factorial m : ℝ)) := by
  refine Summable.congr
    ((Real.summable_pow_div_factorial q).add (summable_mul_pow_div_factorial q))
    (fun m => ?_)
  ring

theorem tsum_succ_pow_div_factorial (q : ℝ) :
    (tsum fun m : ℕ => ((m : ℝ) + 1) * q ^ m / (Nat.factorial m : ℝ)) = (1 + q) * exp q := by
  have hs1 : Summable (fun m : ℕ => q ^ m / (Nat.factorial m : ℝ)) :=
    Real.summable_pow_div_factorial q
  have hs2 := summable_mul_pow_div_factorial q
  have hqexp : tsum (fun m : ℕ => (m : ℝ) * q ^ m / (Nat.factorial m : ℝ)) = q * exp q := by
    rw [tsum_eq_zero_add hs2]
    have h0 : ((0 : ℕ) : ℝ) * q ^ 0 / (Nat.factorial 0 : ℝ) = 0 := by norm_num
    rw [h0, zero_add, tsum_congr (fun n => succ_term_eq q n), tsum_mul_left,
      tsum_pow_div_factorial_eq]
  have hdecomp : ∀ m : ℕ, ((m : ℝ) + 1) * q ^ m / (Nat.factorial m : ℝ)
      = q ^ m / (Nat.factorial m : ℝ) + (m : ℝ) * q ^ m / (Nat.factorial m : ℝ) := by
    intro m; ring
  rw [tsum_congr hdecomp, tsum_add hs1 hs2, tsum_pow_div_factorial_eq, hqexp]
  ring

/-- Weber integral for the normalization of the full-regime densities:
`∫ r^σ exp (-c r^p) I_ν (d r^(p/2)) dr = (d/2)^ν / (p c^(ν+1)) * exp ((d/2)^2/c)`
when `σ = p (ν/2 + 1) - 1`. -/
theorem weber_norm (ν : ℕ) {p c d σ e2 : ℝ} (hp : 0 < p) (hc : 0 < c) (hd : 0 ≤ d)
    (hσ : σ = p * ((ν : ℝ) / 2 + 1) - 1) (he2 : e2 = p / 2) :
    ∫ r in Ioi (0 : ℝ), r ^ σ * exp (-c * r ^ p) * besselI ν (d * r ^ e2)
      = (d / 2) ^ ν / (p * c ^ (ν + 1)) * exp ((d / 2) ^ 2 / c) := by
  have hp' := hp.ne'
  have hc' := hc.ne'
  have hterm : ∀ m : ℕ,
      (d / 2) ^ (2 * m + ν) / ((Nat.factorial m : ℝ) * (Nat.factorial (m + ν) : ℝ)) *
        ((Nat.factorial (m + ν + 0) : ℝ) / (p * c ^ (m + ν + 0 + 1)))
      = (d / 2) ^ ν / (p * c ^ (ν + 1)) * (((d / 2) ^ 2 / c) ^ m / (Nat.factorial m : ℝ)) := by
    intro m
    have hm : (Nat.factorial m : ℝ) ≠ 0 := Nat.cast_ne_zero.mpr (Nat.factorial_ne_zero m)
    have hmv : (Nat.factorial (m + ν) : ℝ) ≠ 0 := Nat.cast_ne_zero.mpr (Nat.factorial_ne_zero _)
    simp only [Nat.add_zero]
    rw [pow_add (d / 2) (2 * m) ν, pow_mul, add_assoc m ν 1, pow_add c m (ν + 1)]
    field_simp
    ring
  have hsum : Summable (fun m : ℕ =>
      (d / 2) ^ (2 * m + ν) / ((Nat.factorial m : ℝ) * (Nat.factorial (m + ν) : ℝ)) *
        ((Nat.factorial (m + ν + 0) : ℝ) / (p * c ^ (m + ν + 0 + 1)))) := by
    refine Summable.congr ((Real.summable_pow_div_factorial ((d / 2) ^ 2 / c)).mul_left
      ((d / 2) ^ ν / (p * c ^ (ν + 1)))) (fun m => ?_)
    exact (hterm m).symm
  rw [weber_core ν 0 hp hc hd (by rw [hσ]; push_cast; ring) he2 hsum,
    tsum_congr hterm, tsum_mul_left, tsum_pow_div_factorial_eq]

/-- Weber integral for the second moment of the full diffusive density:
`∫ r^σ exp (-c r^p) I_0 (d r^(p/2)) dr = (1 + (d/2)^2/c) / (p c^2) * exp ((d/2)^2/c)`
when `σ = 2 p - 1`. -/
theorem weber_r2 {p c d σ e2 : ℝ} (hp : 0 < p) (hc : 0 < c) (hd : 0 ≤ d)
    (hσ : σ = p * 2 - 1) (he2 : e2 = p / 2) :
    ∫ r in Ioi (0 : ℝ), r ^ σ * exp (-c * r ^ p) * besselI 0 (d * r ^ e2)
      = (1 + (d / 2) ^ 2 / c) / (p * c ^ 2) * exp ((d / 2) ^ 2 / c) := by
  have hp' := hp.ne'
  have hc' := hc.ne'
  have hterm : ∀ m : ℕ,
      (d / 2) ^ (2 * m + 0) / ((Nat.factorial m : ℝ) * (Nat.factorial (m + 0) : ℝ)) *
        ((Nat.factorial (m + 0 + 1) : ℝ) / (p * c ^ (m + 0 + 1 + 1)))
      = 1 / (p * c ^ 2) * (((m : ℝ) + 1) * ((d / 2) ^ 2 / c) ^ m / (Nat.factorial m : ℝ)) := by
    intro m
    have hm : (Nat.factorial m : ℝ) ≠ 0 := Nat.cast_ne_zero.mpr (Nat.factorial_ne_zero m)
    simp only [Nat.add_zero]
    rw [Nat.factorial_succ, pow_mul, show m + 1 + 1 = m + 2 from rfl, pow_add c m 2]
    push_cast
    field_simp
    ring
  have hsum : Summable (fun m : ℕ =>
      (d / 2) ^ (2 * m + 0) / ((Nat.factorial m : ℝ) * (Nat.factorial (m + 0) : ℝ)) *
        ((Nat.factorial (m + 0 + 1) : ℝ) / (p * c ^ (m + 0 + 1 + 1)))) := by
    refine Summable.congr ((summable_succ_pow_div_factorial ((d / 2) ^ 2 / c)).mul_left
      (1 / (p * c ^ 2))) (fun m => ?_)
    rw [← hterm m]
  rw [weber_core 0 1 hp hc hd (by rw [hσ]; push_cast; ring) he2 hsum,
    tsum_congr hterm, tsum_mul_left, tsum_succ_pow_div_factorial]
  ring

/-! ### Full diffusive regime -/

theorem pFullDiff_key (k2 t r0 : ℝ) : ∀ r : ℝ,
    pFullDiff k2 t r0 r * r ^ 1 =
      (1.0 / (4 * π * k2 * t) * exp (-(r0 ^ 2 / (4 * k2 * t)))) *
        (r ^ (1 : ℝ) * exp (-(1 / (4 * k2 * t)) * r ^ (2 : ℝ)) *
          besselI 0 ((r0 / (2 * k2 * t)) * r ^ (1 : ℝ))) := by
  intro r
  simp only [pFullDiff, pow_one, Real.rpow_one, Real.rpow_two]
  rw [show r0 * r / (2 * k2 * t) = r0 / (2 * k2 * t) * r by ring,
    show -(r0 ^ 2 + r ^ 2) / (4 * k2 * t) = -(r0 ^ 2 / (4 * k2 * t)) + -(1 / (4 * k2 * t)) * r ^ 2
      by ring, Real.exp_add]
  ring

theorem raFullDiff_eq {k2 t r0 : ℝ} (hk : 0 < k2) (ht : 0 < t) (h0 : 0 < r0) :
    raFullDiff k2 t r0 = 1 := by
  have hc : (0 : ℝ) < 1 / (4 * k2 * t) := by positivity
  have hd : (0 : ℝ) ≤ r0 / (2 * k2 * t) := by positivity
  have hπ := Real.pi_ne_zero
  have hk' := hk.ne'
  have ht' := ht.ne'
  unfold raFullDiff mom
  simp only [pFullDiff_key k2 t r0]
  rw [integral_mul_left,
    weber_norm 0 (show (0:ℝ) < 2 by norm_num) hc hd (by push_cast; norm_num) (by norm_num)]
  rw [pow_zero]
  have hq : (r0 / (2 * k2 * t) / 2) ^ 2 / (1 / (4 * k2 * t)) = r0 ^ 2 / (4 * k2 * t) := by
    field_simp
    ring
  rw [hq, Real.exp_neg]
  have hex := Real.exp_ne_zero (r0 ^ 2 / (4 * k2 * t))
  field_simp
  ring

theorem pFullDiff_key3 (k2 t r0 : ℝ) : ∀ r : ℝ,
    pFullDiff k2 t r0 r * r ^ 3 =
      (1.0 / (4 * π * k2 * t) * exp (-(r0 ^ 2 / (4 * k2 * t)))) *
        (r ^ (3 : ℝ) * exp (-(1 / (4 * k2 * t)) * r ^ (2 : ℝ)) *
          besselI 0 ((r0 / (2 * k2 * t)) * r ^ (1 : ℝ))) := by
  intro r
  simp only [pFullDiff, Real.rpow_one, Real.rpow_two,
    show (3 : ℝ) = ((3 : ℕ) : ℝ) by norm_num, Real.rpow_natCast]
  rw [show r0 * r / (2 * k2 * t) = r0 / (2 * k2 * t) * r by ring,
    show -(r0 ^ 2 + r ^ 2) / (4 * k2 * t) = -(r0 ^ 2 / (4 * k2 * t)) + -(1 / (4 * k2 * t)) * r ^ 2
      by ring, Real.exp_add]
  ring

theorem r2FullDiff_eq {k2 t r0 : ℝ} (hk : 0 < k2) (ht : 0 < t) (h0 : 0 < r0) :
    r2FullDiff k2 t r0 = 4 * k2 * t + r0 ^ 2 := by
  have hc : (0 : ℝ) < 1 / (4 * k2 * t) := by positivity
  have hd : (0 : ℝ) ≤ r0 / (2 * k2 * t) := by positivity
  have hπ := Real.pi_ne_zero
  have hk' := hk.ne'
  have ht' := ht.ne'
  unfold r2FullDiff mom
  simp only [pFullDiff_key3 k2 t r0]
  rw [integral_mul_left,
    weber_r2 (show (0:ℝ) < 2 by norm_num) hc hd (by norm_num) (by norm_num)]
  have hq : (r0 / (2 * k2 * t) / 2) ^ 2 / (1 / (4 * k2 * t)) = r0 ^ 2 / (4 * k2 * t) := by
    field_simp
    ring
  rw [hq, Real.exp_neg]
  have hex := Real.exp_ne_zero (r0 ^ 2 / (4 * k2 * t))
  field_simp
  ring

theorem r2FullDiff_tendsto {k2 t : ℝ} (hk : 0 < k2) (ht : 0 < t) :
    Tendsto (fun r0 => r2FullDiff k2 t r0) (nhdsWithin 0 (Ioi 0)) (nhds (4 * k2 * t)) := by
  have hcont : Tendsto (fun r0 : ℝ => 4 * k2 * t + r0 ^ 2)
      (nhdsWithin 0 (Ioi 0)) (nhds (4 * k2 * t)) := by
    have h1 : Continuous (fun r0 : ℝ => 4 * k2 * t + r0 ^ 2) := by continuity
    have h2 := (h1.tendsto 0).mono_left (nhdsWithin_le_nhds (s := Ioi (0:ℝ)))
    simpa using h2
  refine hcont.congr' ?_
  filter_upwards [self_mem_nhdsWithin] with r0 hr0
  exact (r2FullDiff_eq hk ht hr0).symm

/-! ### Full Garrett–Munk regime -/

theorem pFullGM_key {lm t r0 : ℝ} (h0 : 0 < r0) : ∀ r ∈ Ioi (0 : ℝ),
    pFullGM lm t r0 r * r ^ 1 =
      (1.0 / (π * lm * t * r0 ^ ((3.0 : ℝ) / 4.0)) *
          exp (-(4.0 * r0 ^ ((1.0 : ℝ) / 2.0) / (lm * t)))) *
        (r ^ ((1.0 : ℝ) / 4.0) * exp (-(4.0 / (lm * t)) * r ^ ((1.0 : ℝ) / 2.0)) *
          besselI 3 ((8.0 * r0 ^ ((1.0 : ℝ) / 4.0) / (lm * t)) * r ^ ((1.0 : ℝ) / 4.0))) := by
  intro r hr
  have hrpos : (0 : ℝ) < r := hr
  simp only [pFullGM, pow_one]
  rw [Real.mul_rpow h0.le hrpos.le, Real.mul_rpow h0.le hrpos.le,
    show -4.0 * (r0 ^ ((1.0 : ℝ) / 2.0) + r ^ ((1.0 : ℝ) / 2.0)) / (lm * t)
        = -(4.0 * r0 ^ ((1.0 : ℝ) / 2.0) / (lm * t)) + -(4.0 / (lm * t)) * r ^ ((1.0 : ℝ) / 2.0)
      by ring,
    Real.exp_add,
    show 8.0 * (r0 ^ ((1.0 : ℝ) / 4.0) * r ^ ((1.0 : ℝ) / 4.0)) / (lm * t)
        = 8.0 * r0 ^ ((1.0 : ℝ) / 4.0) / (lm * t) * r ^ ((1.0 : ℝ) / 4.0) by ring]
  have hdiv : r / r ^ ((3.0 : ℝ) / 4.0) = r ^ ((1.0 : ℝ) / 4.0) := by
    rw [show (1.0 : ℝ) / 4.0 = (1 : ℝ) - (3.0 : ℝ) / 4.0 by norm_num, Real.rpow_sub hrpos,
      Real.rpow_one]
  rw [← hdiv]
  ring

theorem raFullGM_eq {lm t r0 : ℝ} (hl : 0 < lm) (ht : 0 < t) (h0 : 0 < r0) :
    raFullGM lm t r0 = 1 := by
  have hc : (0 : ℝ) < 4.0 / (lm * t) := by positivity
  have hd : (0 : ℝ) ≤ 8.0 * r0 ^ ((1.0 : ℝ) / 4.0) / (lm * t) := by positivity
  have hπ := Real.pi_ne_zero
  have hl' := hl.ne'
  have ht' := ht.ne'
  unfold raFullGM mom
  rw [setIntegral_congr_fun measurableSet_Ioi (pFullGM_key h0), integral_mul_left,
    weber_norm 3 (show (0:ℝ) < (1.0 : ℝ) / 2.0 by norm_num) hc hd (by push_cast; norm_num)
      (by norm_num)]
  have h42 : (r0 ^ ((1.0 : ℝ) / 4.0)) ^ (2 : ℕ) = r0 ^ ((1.0 : ℝ) / 2.0) := by
    rw [← Real.rpow_natCast (r0 ^ ((1.0 : ℝ) / 4.0)) 2, ← Real.rpow_mul h0.le]
    norm_num
  have h43 : (r0 ^ ((1.0 : ℝ) / 4.0)) ^ (3 : ℕ) = r0 ^ ((3.0 : ℝ) / 4.0) := by
    rw [← Real.rpow_natCast (r0 ^ ((1.0 : ℝ) / 4.0)) 3, ← Real.rpow_mul h0.le]
    norm_num
  have hq : (8.0 * r0 ^ ((1.0 : ℝ) / 4.0) / (lm * t) / 2) ^ 2 / (4.0 / (lm * t))
      = 4.0 * r0 ^ ((1.0 : ℝ) / 2.0) / (lm * t) := by
    rw [show (8.0 * r0 ^ ((1.0 : ℝ) / 4.0) / (lm * t) / 2) ^ 2
        = 16 * (r0 ^ ((1.0 : ℝ) / 4.0)) ^ (2 : ℕ) / (lm * t) ^ 2 by ring, h42]
    field_simp
    ring
  rw [hq, Real.exp_neg,
    show (8.0 * r0 ^ ((1.0 : ℝ) / 4.0) / (lm * t) / 2) ^ 3
        = 64 * (r0 ^ ((1.0 : ℝ) / 4.0)) ^ (3 : ℕ) / (lm * t) ^ 3 by ring, h43]
  have hr34 : r0 ^ ((3.0 : ℝ) / 4.0) ≠ 0 := (Real.rpow_pos_of_pos h0 _).ne'
  have hex := Real.exp_ne_zero (4.0 * r0 ^ ((1.0 : ℝ) / 2.0) / (lm * t))
  field_simp
  ring

/-! ### Full Richardson regime -/

theorem pFullRich_key {bt t r0 : ℝ} (h0 : 0 < r0) : ∀ r ∈ Ioi (0 : ℝ),
    pFullRich bt t r0 r * r ^ 1 =
      (3.0 / (4.0 * π * bt * t * r0 ^ ((2.0 : ℝ) / 3.0)) *
          exp (-(9.0 * r0 ^ ((2.0 : ℝ) / 3.0) / (4.0 * bt * t)))) *
        (r ^ ((1.0 : ℝ) / 3.0) * exp (-(9.0 / (4.0 * bt * t)) * r ^ ((2.0 : ℝ) / 3.0)) *
          besselI 2 ((9.0 * r0 ^ ((1.0 : ℝ) / 3.0) / (2.0 * bt * t)) * r ^ ((1.0 : ℝ) / 3.0))) := by
  intro r hr
  have hrpos : (0 : ℝ) < r := hr
  simp only [pFullRich, pow_one]
  rw [Real.mul_rpow h0.le hrpos.le, Real.mul_rpow h0.le hrpos.le,
    show -9.0 * (r0 ^ ((2.0 : ℝ) / 3.0) + r ^ ((2.0 : ℝ) / 3.0)) / (4.0 * bt * t)
        = -(9.0 * r0 ^ ((2.0 : ℝ) / 3.0) / (4.0 * bt * t))
          + -(9.0 / (4.0 * bt * t)) * r ^ ((2.0 : ℝ) / 3.0) by ring,
    Real.exp_add,
    show 9.0 * (r0 ^ ((1.0 : ℝ) / 3.0) * r ^ ((1.0 : ℝ) / 3.0)) / (2.0 * bt * t)
        = 9.0 * r0 ^ ((1.0 : ℝ) / 3.0) / (2.0 * bt * t) * r ^ ((1.0 : ℝ) / 3.0) by ring]
  have hdiv : r / r ^ ((2.0 : ℝ) / 3.0) = r ^ ((1.0 : ℝ) / 3.0) := by
    rw [show (1.0 : ℝ) / 3.0 = (1 : ℝ) - (2.0 : ℝ) / 3.0 by norm_num, Real.rpow_sub hrpos,
      Real.rpow_one]
  rw [← hdiv]
  ring

theorem raFullRich_eq {bt t r0 : ℝ} (hb : 0 < bt) (ht : 0 < t) (h0 : 0 < r0) :
    raFullRich bt t r0 = 1 := by
  have hc : (0 : ℝ) < 9.0 / (4.0 * bt * t) := by positivity
  have hd : (0 : ℝ) ≤ 9.0 * r0 ^ ((1.0 : ℝ) / 3.0) / (2.0 * bt * t) := by positivity
  have hπ := Real.pi_ne_zero
  have hb' := hb.ne'
  have ht' := ht.ne'
  unfold raFullRich mom
  rw [setIntegral_congr_fun measurableSet_Ioi (pFullRich_key h0), integral_mul_left,
    weber_norm 2 (show (0:ℝ) < (2.0 : ℝ) / 3.0 by norm_num) hc hd (by push_cast; norm_num)
      (by norm_num)]
  have h32 : (r0 ^ ((1.0 : ℝ) / 3.0)) ^ (2 : ℕ) = r0 ^ ((2.0 : ℝ) / 3.0) := by
    rw [← Real.rpow_natCast (r0 ^ ((1.0 : ℝ) / 3.0)) 2, ← Real.rpow_mul h0.le]
    norm_num
  have hq : (9.0 * r0 ^ ((1.0 : ℝ) / 3.0) / (2.0 * bt * t) / 2) ^ 2 / (9.0 / (4.0 * bt * t))
      = 9.0 * r0 ^ ((2.0 : ℝ) / 3.0) / (4.0 * bt * t) := by
    rw [show (9.0 * r0 ^ ((1.0 : ℝ) / 3.0) / (2.0 * bt * t) / 2) ^ 2
        = 81 * (r0 ^ ((1.0 : ℝ) / 3.0)) ^ (2 : ℕ) / (16 * (bt * t) ^ 2) by ring, h32]
    field_simp
    ring
  rw [hq, Real.exp_neg,
    show (9.0 * r0 ^ ((1.0 : ℝ) / 3.0) / (2.0 * bt * t) / 2) ^ 2
        = 81 * (r0 ^ ((1.0 : ℝ) / 3.0)) ^ (2 : ℕ) / (16 * (bt * t) ^ 2) by ring, h32]
  have hr23 : r0 ^ ((2.0 : ℝ) / 3.0) ≠ 0 := (Real.rpow_pos_of_pos h0 _).ne'
  have hex := Real.exp_ne_zero (9.0 * r0 ^ ((2.0 : ℝ) / 3.0) / (4.0 * bt * t))
  field_simp
  ring

/-! ### Generalized full regime (`a = 1`): the normalization is 1/2, not 1 -/

theorem pGenFull_key {kp t r0 : ℝ} (hk : 0 < kp) (ht : 0 < t) (h0 : 0 < r0) :
    ∀ r ∈ Ioi (0 : ℝ),
    pGenFull kp t r0 r * r ^ 1 =
      (1 / (4 * π * kp * t * r0 ^ ((0.5 : ℝ))) * exp (-(r0 / (kp * t)))) *
        (r ^ ((0.5 : ℝ)) * exp (-(1 / (kp * t)) * r ^ (1 : ℝ)) *
          besselI 1 ((2.0 * r0 ^ ((0.5 : ℝ)) / (kp * t)) * r ^ ((0.5 : ℝ)))) := by
  intro r hr
  have hrpos : (0 : ℝ) < r := hr
  have hX : r ^ ((0.5 : ℝ)) ≠ 0 := (Real.rpow_pos_of_pos hrpos _).ne'
  have hY : r0 ^ ((0.5 : ℝ)) ≠ 0 := (Real.rpow_pos_of_pos h0 _).ne'
  have h2 : r ^ ((0.5 : ℝ)) * r ^ ((0.5 : ℝ)) = r := by
    rw [← Real.rpow_add hrpos]
    norm_num
  have hπ := Real.pi_ne_zero
  have hk' := hk.ne'
  have ht' := ht.ne'
  simp only [pGenFull, pow_one, Real.rpow_one]
  rw [Real.mul_rpow hrpos.le h0.le,
    show -(1.0) * (r + r0) / (kp * t) = -(r0 / (kp * t)) + -(1 / (kp * t)) * r by ring,
    Real.exp_add,
    show 2.0 * (r ^ ((0.5 : ℝ)) * r0 ^ ((0.5 : ℝ))) / (kp * t)
        = 2.0 * r0 ^ ((0.5 : ℝ)) / (kp * t) * r ^ ((0.5 : ℝ)) by ring]
  have hdiv2 : r ^ ((0.5 : ℝ)) = r / r ^ ((0.5 : ℝ)) := by
    rw [eq_div_iff hX]
    exact h2
  nth_rewrite 3 [hdiv2]
  ring

theorem raGenFull_eq {kp t r0 : ℝ} (hk : 0 < kp) (ht : 0 < t) (h0 : 0 < r0) :
    raGenFull kp t r0 = 1 / 2 := by
  have hc : (0 : ℝ) < 1 / (kp * t) := by positivity
  have hd : (0 : ℝ) ≤ 2.0 * r0 ^ ((0.5 : ℝ)) / (kp * t) := by positivity
  have hπ := Real.pi_ne_zero
  have hk' := hk.ne'
  have ht' := ht.ne'
  unfold raGenFull mom
  rw [setIntegral_congr_fun measurableSet_Ioi (pGenFull_key hk ht h0), integral_mul_left,
    weber_norm 1 (show (0:ℝ) < (1 : ℝ) by norm_num) hc hd (by push_cast; norm_num)
      (by norm_num)]
  have h52 : (r0 ^ ((0.5 : ℝ))) ^ (2 : ℕ) = r0 := by
    rw [← Real.rpow_natCast (r0 ^ ((0.5 : ℝ))) 2, ← Real.rpow_mul h0.le,
      show (0.5 : ℝ) * ((2 : ℕ) : ℝ) = 1 by norm_num, Real.rpow_one]
  have hq : (2.0 * r0 ^ ((0.5 : ℝ)) / (kp * t) / 2) ^ 2 / (1 / (kp * t)) = r0 / (kp * t) := by
    rw [show (2.0 * r0 ^ ((0.5 : ℝ)) / (kp * t) / 2) ^ 2
        = (r0 ^ ((0.5 : ℝ))) ^ (2 : ℕ) / (kp * t) ^ 2 by ring, h52]
    field_simp
    ring
  rw [hq, Real.exp_neg, pow_one]
  have hr05 : r0 ^ ((0.5 : ℝ)) ≠ 0 := (Real.rpow_pos_of_pos h0 _).ne'
  have hex := Real.exp_ne_zero (r0 / (kp * t))
  field_simp
  ring

/-! ### Lundgren regime (log-substituted) -/

theorem pLundgrenLog_key {r0 t T : ℝ} (h0 : 0 < r0) (ht : 0 < t) (hT : 0 < T) : ∀ x : ℝ,
    pLundgrenLog r0 t T x * (r0 * exp x) ^ 2 =
      (1 / (4 * π ^ (1.5 : ℝ) * (t / T) ^ (0.5 : ℝ))) *
        exp (-(1 / (4 * (t / T))) * (x + -(2 * (t / T))) ^ 2) := by
  intro x
  have hτ : (0 : ℝ) < t / T := by positivity
  have hτ' := hτ.ne'
  have hr0' := h0.ne'
  simp only [pLundgrenLog, mul_pow]
  rw [show exp x ^ 2 = exp (x + x) by rw [Real.exp_add]; ring]
  rw [show 1 / (4 * π ^ (1.5 : ℝ) * r0 ^ 2 * (t / T) ^ (0.5 : ℝ)) *
        exp (-(x + 2 * (t / T)) ^ 2 / (4 * (t / T))) * (r0 ^ 2 * exp (x + x))
      = 1 / (4 * π ^ (1.5 : ℝ) * r0 ^ 2 * (t / T) ^ (0.5 : ℝ)) * r0 ^ 2 *
          (exp (-(x + 2 * (t / T)) ^ 2 / (4 * (t / T))) * exp (x + x)) by ring,
    ← Real.exp_add,
    show -(x + 2 * (t / T)) ^ 2 / (4 * (t / T)) + (x + x)
      = -(1 / (4 * (t / T))) * (x + -(2 * (t / T))) ^ 2 by field_simp; ring]
  have hπ15 : π ^ (1.5 : ℝ) ≠ 0 := (Real.rpow_pos_of_pos Real.pi_pos _).ne'
  have hτ05 : (t / T) ^ (0.5 : ℝ) ≠ 0 := (Real.rpow_pos_of_pos hτ _).ne'
  field_simp
  ring

theorem raLundgrenLog_eq {r0 t T : ℝ} (h0 : 0 < r0) (ht : 0 < t) (hT : 0 < T) :
    raLundgrenLog r0 t T = 1 := by
  have hτ : (0 : ℝ) < t / T := by positivity
  unfold raLundgrenLog
  simp only [pLundgrenLog_key h0 ht hT]
  rw [integral_mul_left,
    integral_add_right_eq_self (fun y : ℝ => exp (-(1 / (4 * (t / T))) * y ^ 2))
      (-(2 * (t / T))),
    integral_gaussian]
  have h4 : π / (1 / (4 * (t / T))) = (2 : ℝ) ^ 2 * (π * (t / T)) := by
    field_simp
    ring
  rw [h4, Real.sqrt_mul (by norm_num : (0:ℝ) ≤ (2:ℝ) ^ 2), Real.sqrt_sq (by norm_num : (0:ℝ) ≤ 2),
    Real.sqrt_mul Real.pi_pos.le]
  have hπ15 : π ^ (1.5 : ℝ) = π * Real.sqrt π := by
    rw [show (1.5 : ℝ) = 1 + 1 / 2 by norm_num, Real.rpow_add Real.pi_pos, Real.rpow_one,
      ← Real.sqrt_eq_rpow]
  have hτ05 : (t / T) ^ (0.5 : ℝ) = Real.sqrt (t / T) := by
    rw [show (0.5 : ℝ) = 1 / 2 by norm_num, ← Real.sqrt_eq_rpow]
  rw [hπ15, hτ05]
  have hsπ : Real.sqrt π ≠ 0 := (Real.sqrt_pos.mpr Real.pi_pos).ne'
  have hsτ : Real.sqrt (t / T) ≠ 0 := (Real.sqrt_pos.mpr hτ).ne'
  have hπ := Real.pi_ne_zero
  field_simp
  ring

/-! ### Dtype-downcast conversion -/

theorem compress_full {F : Type} (f32 : F → F)
    (ids time vID vrow : List Int) (vve vvn vlon vlat : List F) :
    compress f32 "laser"
      { coordIds := ids
        coordTime := time
        vars := [("ID", VarData.ints vID), ("rowsize", VarData.ints vrow),
                 ("ve", VarData.floats vve), ("vn", VarData.floats vvn),
                 ("longitude", VarData.floats vlon), ("latitude", VarData.floats vlat)]
        title := "LASER experiment" }
      = Except.ok
        { coordIds := ids
          coordTime := time
          vars := [("ID", VarData.ints (vID.map int32cast)),
                   ("rowsize", VarData.ints (vrow.map int32cast)),
                   ("ve", VarData.floats (vve.map f32)),
                   ("vn", VarData.floats (vvn.map f32)),
                   ("longitude", VarData.floats (vlon.map f32)),
                   ("latitude", VarData.floats (vlat.map f32))]
          title := String.toLower "LASER" ++ " experiment" } := by
  have htolower : String.toLower "LASER" = "laser" := by
    show String.map Char.toLower "LASER" = "laser"
    rw [String.map_eq]
    decide
  rw [htolower]
  rfl

theorem getIntVar_ok_lookup {F : Type} {d : XDataset F} {nm : String} {v : List Int}
    (h : getIntVar d nm = Except.ok v) : d.vars.lookup nm ≠ none := by
  intro hn
  unfold getIntVar at h
  rw [hn] at h
  exact absurd h (by simp)

theorem getFloatVar_ok_lookup {F : Type} {d : XDataset F} {nm : String} {v : List F}
    (h : getFloatVar d nm = Except.ok v) : d.vars.lookup nm ≠ none := by
  intro hn
  unfold getFloatVar at h
  rw [hn] at h
  exact absurd h (by simp)

theorem compress_error_of_missing {F : Type} (f32 : F → F) (dname : String) (d : XDataset F)
    (h : ∃ nm ∈ ["ID", "rowsize", "ve", "vn", "longitude", "latitude"],
      d.vars.lookup nm = none) :
    ∃ e, compress f32 dname d = Except.error e := by
  obtain ⟨nm, hnm, hnone⟩ := h
  simp only [List.mem_cons, List.mem_singleton, List.not_mem_nil, or_false] at hnm
  cases h1 : getIntVar d "ID" with
  | error e => exact ⟨e, by simp only [compress, h1]; rfl⟩
  | ok vID =>
  cases h2 : getIntVar d "rowsize" with
  | error e => exact ⟨e, by simp only [compress, h1, h2]; rfl⟩
  | ok vrow =>
  cases h3 : getFloatVar d "ve" with
  | error e => exact ⟨e, by simp only [compress, h1, h2, h3]; rfl⟩
  | ok vve =>
  cases h4 : getFloatVar d "vn" with
  | error e => exact ⟨e, by simp only [compress, h1, h2, h3, h4]; rfl⟩
  | ok vvn =>
  cases h5 : getFloatVar d "longitude" with
  | error e => exact ⟨e, by simp only [compress, h1, h2, h3, h4, h5]; rfl⟩
  | ok vlon =>
  cases h6 : getFloatVar d "latitude" with
  | error e => exact ⟨e, by simp only [compress, h1, h2, h3, h4, h5, h6]; rfl⟩
  | ok vlat =>
  exfalso
  rcases hnm with h | h | h | h | h | h
  · exact getIntVar_ok_lookup (h ▸ h1) hnone
  · exact getIntVar_ok_lookup (h ▸ h2) hnone
  · exact getFloatVar_ok_lookup (h ▸ h3) hnone
  · exact getFloatVar_ok_lookup (h ▸ h4) hnone
  · exact getFloatVar_ok_lookup (h ▸ h5) hnone
  · exact getFloatVar_ok_lookup (h ▸ h6) hnone

/-! ### Claim theorems -/

/-- C1 (counterexample): the claim says every regime's density has zeroth moment 1
for all admissible positive parameters, but the generalized full density as coded
(`a = 1`) integrates to 1/2, not 1, at `kappa = t = r0 = 1`. -/
theorem C1_counterexample : raGenFull 1 1 1 ≠ 1 := by
  rw [raGenFull_eq one_pos one_pos one_pos]
  norm_num

/-- C1 (amended): every regime's density other than that of the generalized full
regime has zeroth moment (normalization) exactly 1 over its stated domain —
`(0, ∞)` for the raw-radius densities and `(−∞, ∞)` for the log-substituted
Lundgren density — for all admissible positive parameter values. -/
theorem C1_normalization (k2 t r0 lm bt T : ℝ) (hk2 : 0 < k2) (ht : 0 < t) (hr0 : 0 < r0)
    (hlm : 0 < lm) (hbt : 0 < bt) (hT : 0 < T) :
    raAsymDiff k2 t = 1 ∧ raFullDiff k2 t r0 = 1 ∧ raAsymGM lm t = 1 ∧ raFullGM lm t r0 = 1 ∧
      raGenAsym lm t = 1 ∧ raAsymRich bt t = 1 ∧ raFullRich bt t r0 = 1 ∧
      raLundgrenLog r0 t T = 1 :=
  ⟨raAsymDiff_eq hk2 ht, raFullDiff_eq hk2 ht hr0, raAsymGM_eq hlm ht, raFullGM_eq hlm ht hr0,
    raGenAsym_eq hlm ht, raAsymRich_eq hbt ht, raFullRich_eq hbt ht hr0,
    raLundgrenLog_eq hr0 ht hT⟩

/-- C1 witness: the amended normalization claim instantiated at all parameters 1. -/
theorem C1_normalization_witness :
    ((0:ℝ) < 1) ∧
      (raAsymDiff 1 1 = 1 ∧ raFullDiff 1 1 1 = 1 ∧ raAsymGM 1 1 = 1 ∧ raFullGM 1 1 1 = 1 ∧
        raGenAsym 1 1 = 1 ∧ raAsymRich 1 1 = 1 ∧ raFullRich 1 1 1 = 1 ∧
        raLundgrenLog 1 1 1 = 1) :=
  ⟨one_pos, C1_normalization 1 1 1 1 1 1 one_pos one_pos one_pos one_pos one_pos one_pos⟩

/-- C2: for the asymptotic diffusive regime, the second moment is `4 k2 t`, the
fourth moment is `32 k2² t²`, and the kurtosis `Ku = r4 / r2^2.0` is exactly 2,
for all positive `k2`, `t`. -/
theorem C2_asym_diffusive_moments (k2 t : ℝ) (hk2 : 0 < k2) (ht : 0 < t) :
    r2AsymDiff k2 t = 4 * k2 * t ∧ r4AsymDiff k2 t = 32 * k2 ^ 2 * t ^ 2 ∧
      KuAsymDiff k2 t = 2 :=
  ⟨r2AsymDiff_eq hk2 ht, r4AsymDiff_eq hk2 ht, KuAsymDiff_eq hk2 ht⟩

/-- C2 witness: the asymptotic diffusive moments at `k2 = t = 1`. -/
theorem C2_asym_diffusive_moments_witness :
    ((0:ℝ) < 1) ∧
      (r2AsymDiff 1 1 = 4 * 1 * 1 ∧ r4AsymDiff 1 1 = 32 * 1 ^ 2 * 1 ^ 2 ∧ KuAsymDiff 1 1 = 2) :=
  ⟨one_pos, C2_asym_diffusive_moments 1 1 one_pos one_pos⟩

/-- C3: the effective diffusivity `K2 = diff(r2, t)/2` of the asymptotic diffusive
regime equals exactly `2 k2`, independent of `t`, for all positive `k2`, `t`. -/
theorem C3_asym_diffusive_K2 (k2 t : ℝ) (hk2 : 0 < k2) (ht : 0 < t) :
    K2AsymDiff k2 t = 2 * k2 :=
  K2AsymDiff_eq hk2 ht

/-- C3 witness: the effective diffusivity at `k2 = t = 1`. -/
theorem C3_asym_diffusive_K2_witness : ((0:ℝ) < 1) ∧ K2AsymDiff 1 1 = 2 * 1 :=
  ⟨one_pos, C3_asym_diffusive_K2 1 1 one_pos one_pos⟩

/-- C4: for the full diffusive regime the second moment equals `4 k2 t + r0²` for
all positive `k2`, `t`, `r0`, and it tends to the asymptotic value `4 k2 t` as
`r0 → 0⁺`. -/
theorem C4_full_diffusive_r2 (k2 t r0 : ℝ) (hk2 : 0 < k2) (ht : 0 < t) (hr0 : 0 < r0) :
    r2FullDiff k2 t r0 = 4 * k2 * t + r0 ^ 2 ∧
      Tendsto (fun s => r2FullDiff k2 t s) (nhdsWithin 0 (Ioi 0)) (nhds (4 * k2 * t)) :=
  ⟨r2FullDiff_eq hk2 ht hr0, r2FullDiff_tendsto hk2 ht⟩

/-- C4 witness: the full diffusive second moment at `k2 = t = r0 = 1`. -/
theorem C4_full_diffusive_r2_witness :
    ((0:ℝ) < 1) ∧
      (r2FullDiff 1 1 1 = 4 * 1 * 1 + 1 ^ 2 ∧
        Tendsto (fun s => r2FullDiff 1 1 s) (nhdsWithin 0 (Ioi 0)) (nhds (4 * 1 * 1))) :=
  ⟨one_pos, C4_full_diffusive_r2 1 1 1 one_pos one_pos one_pos⟩

/-- C5: for the asymptotic Garrett–Munk regime the second moment equals
`3.28125 λ⁴ t⁴` and the kurtosis equals exactly `66/7`, for all positive `λ`, `t`. -/
theorem C5_asym_GM_moments (lm t : ℝ) (hlm : 0 < lm) (ht : 0 < t) :
    r2AsymGM lm t = 3.28125 * lm ^ 4 * t ^ 4 ∧ KuAsymGM lm t = 66 / 7 :=
  ⟨r2AsymGM_eq hlm ht, KuAsymGM_eq hlm ht⟩

/-- C5 witness: the asymptotic GM moments at `λ = t = 1`. -/
theorem C5_asym_GM_moments_witness :
    ((0:ℝ) < 1) ∧ (r2AsymGM 1 1 = 3.28125 * 1 ^ 4 * 1 ^ 4 ∧ KuAsymGM 1 1 = 66 / 7) :=
  ⟨one_pos, C5_asym_GM_moments 1 1 one_pos one_pos⟩

/-- C6 (counterexample): the claimed second-moment coefficient
`5.26748971193416` is a decimal rounding; the exact value of `r2` at
`β = t = 1` is `1280/243 = 5.267489711934156...`, which differs from it. -/
theorem C6_counterexample : r2AsymRich 1 1 ≠ 5.26748971193416 := by
  rw [r2AsymRich_eq one_pos one_pos]
  norm_num

/-- C6 (amended): for the asymptotic Richardson regime the second moment equals
exactly `(1280/243) β³ t³` (whose 15-digit decimal display is 5.26748971193416)
and the kurtosis equals exactly 5.6, for all positive `β`, `t`. -/
theorem C6_asym_richardson_moments (bt t : ℝ) (hbt : 0 < bt) (ht : 0 < t) :
    r2AsymRich bt t = 1280 / 243 * bt ^ 3 * t ^ 3 ∧ KuAsymRich bt t = 5.6 :=
  ⟨r2AsymRich_eq hbt ht, KuAsymRich_eq hbt ht⟩

/-- C6 witness: the asymptotic Richardson moments at `β = t = 1`. -/
theorem C6_asym_richardson_moments_witness :
    ((0:ℝ) < 1) ∧ (r2AsymRich 1 1 = 1280 / 243 * 1 ^ 3 * 1 ^ 3 ∧ KuAsymRich 1 1 = 5.6) :=
  ⟨one_pos, C6_asym_richardson_moments 1 1 one_pos one_pos⟩

/-- C8: the dtype-downcast of the six-variable dataset succeeds, converting each
targeted variable by the corresponding elementwise cast (`int32cast` for `ID`
and `rowsize`, the `float32` cast `f32` for `ve`, `vn`, `longitude`,
`latitude`), leaving the coordinates unchanged, and setting the title attribute
to the lowercased experiment name followed by the string of one space and the
word experiment. -/
theorem C8_downcast {F : Type} (f32 : F → F)
    (ids time vID vrow : List Int) (vve vvn vlon vlat : List F) :
    compress f32 "laser"
      { coordIds := ids
        coordTime := time
        vars := [("ID", VarData.ints vID), ("rowsize", VarData.ints vrow),
                 ("ve", VarData.floats vve), ("vn", VarData.floats vvn),
                 ("longitude", VarData.floats vlon), ("latitude", VarData.floats vlat)]
        title := "LASER experiment" }
      = Except.ok
        { coordIds := ids
          coordTime := time
          vars := [("ID", VarData.ints (vID.map int32cast)),
                   ("rowsize", VarData.ints (vrow.map int32cast)),
                   ("ve", VarData.floats (vve.map f32)),
                   ("vn", VarData.floats (vvn.map f32)),
                   ("longitude", VarData.floats (vlon.map f32)),
                   ("latitude", VarData.floats (vlat.map f32))]
          title := String.toLower "LASER" ++ " experiment" } :=
  compress_full f32 ids time vID vrow vve vvn vlon vlat

/-- C9: if any of the six variables targeted for downcast is absent from the
source dataset, the conversion fails with an error before producing any output
dataset (so nothing is ever handed to the NetCDF writer and the immutable
source is unchanged). -/
theorem C9_missing_variable {F : Type} (f32 : F → F) (dname : String) (d : XDataset F)
    (h : ∃ nm ∈ ["ID", "rowsize", "ve", "vn", "longitude", "latitude"],
      d.vars.lookup nm = none) :
    ∃ e, compress f32 dname d = Except.error e :=
  compress_error_of_missing f32 dname d h

/-- C9 witness: a dataset with no variables at all is missing `ID`, and the
conversion on it fails. -/
theorem C9_missing_variable_witness :
    (∃ nm ∈ ["ID", "rowsize", "ve", "vn", "longitude", "latitude"],
        (XDataset.mk ([] : List Int) [] ([] : List (String × VarData Int))
          "LASER experiment").vars.lookup nm = none) ∧
      ∃ e, compress (fun x : Int => x) "laser"
        (XDataset.mk [] [] [] "LASER experiment") = Except.error e :=
  ⟨⟨"ID", by simp, rfl⟩,
    C9_missing_variable (fun x : Int => x) "laser" _ ⟨"ID", by simp, rfl⟩⟩

/-- C10: the generalized asymptotic density instantiated at `a = 2` coincides
pointwise with the asymptotic GM density, and all derived quantities agree:
normalization, second moment (`3.28125 λ⁴ t⁴`), fourth moment
(`101.513671875 λ⁸ t⁸`), the general n-th moment, kurtosis (`66/7`), and
`K2` (`6.5625 λ⁴ t³`), for all positive `λ`, `t` and every moment order `n`. -/
theorem C10_generalized_a2_eq_GM (lm t : ℝ) (hlm : 0 < lm) (ht : 0 < t) :
    (∀ r : ℝ, pGenAsym 2 lm t r = pAsymGM lm t r) ∧
      raGenAsym lm t = raAsymGM lm t ∧
      r2GenAsym lm t = r2AsymGM lm t ∧ r2GenAsym lm t = 3.28125 * lm ^ 4 * t ^ 4 ∧
      r4GenAsym lm t = r4AsymGM lm t ∧ r4GenAsym lm t = 101.513671875 * lm ^ 8 * t ^ 8 ∧
      (∀ n : ℝ, rnGenAsym lm t n = rnAsymGM lm t n) ∧
      KuGenAsym lm t = KuAsymGM lm t ∧ KuGenAsym lm t = 66 / 7 ∧
      K2GenAsym lm t = K2AsymGM lm t ∧ K2GenAsym lm t = 6.5625 * lm ^ 4 * t ^ 3 := by
  refine ⟨fun r => congrFun (pGenAsym_two_eq hlm ht) r, raGenAsym_eq_GM hlm ht,
    r2GenAsym_eq_GM hlm ht, ?_, r4GenAsym_eq_GM hlm ht, ?_, rnGenAsym_eq_GM hlm ht,
    KuGenAsym_eq_GM hlm ht, ?_, K2GenAsym_eq_GM hlm ht, K2GenAsym_eq hlm ht⟩
  · rw [r2GenAsym_eq_GM hlm ht, r2AsymGM_eq hlm ht]
  · rw [r4GenAsym_eq_GM hlm ht, r4AsymGM_eq hlm ht]
  · rw [KuGenAsym_eq_GM hlm ht, KuAsymGM_eq hlm ht]

/-- C10 witness: the generalized/GM agreement at `λ = t = 1`. -/
theorem C10_generalized_a2_eq_GM_witness :
    ((0:ℝ) < 1) ∧
      ((∀ r : ℝ, pGenAsym 2 1 1 r = pAsymGM 1 1 r) ∧
        raGenAsym 1 1 = raAsymGM 1 1 ∧
        r2GenAsym 1 1 = r2AsymGM 1 1 ∧ r2GenAsym 1 1 = 3.28125 * 1 ^ 4 * 1 ^ 4 ∧
        r4GenAsym 1 1 = r4AsymGM 1 1 ∧ r4GenAsym 1 1 = 101.513671875 * 1 ^ 8 * 1 ^ 8 ∧
        (∀ n : ℝ, rnGenAsym 1 1 n = rnAsymGM 1 1 n) ∧
        KuGenAsym 1 1 = KuAsymGM 1 1 ∧ KuGenAsym 1 1 = 66 / 7 ∧
        K2GenAsym 1 1 = K2AsymGM 1 1 ∧ K2GenAsym 1 1 = 6.5625 * 1 ^ 4 * 1 ^ 3) :=
  ⟨one_pos, C10_generalized_a2_eq_GM 1 1 one_pos one_pos⟩

end XDispersion
